import Mathlib

/-!
Shallow embedding of the `isize-vec` crate (`src/lib.rs`): a vector of items,
each tagged with an `isize` order key, kept sorted ascending by key, with a
sign-dependent tie-break on insertion (append for non-negative keys, prepend
for negative keys).  Machine integers `isize` are modelled as `Int`; the only
place a concrete bound enters is `push`, which tags with `isize::MAX`.
Fallible operations (those that panic in Rust on out-of-bounds input) return
`Option`, with `none` marking the panic.
-/

namespace IsizeVecSpec

/-- `isize::MAX` on a 64-bit target. -/
def isizeMax : Int := 2 ^ 63 - 1

/-- The container `IsizeVec<T>`: fields `items: Vec<T>` and `order: Vec<isize>`
held in lockstep. -/
structure IsizeVec (T : Type) where
  items : List T
  order : List Int
deriving Repr, DecidableEq

/-- `IsizeVec::new()`. -/
def IsizeVec.new (T : Type) : IsizeVec T := ⟨[], []⟩

/-- `IsizeVec::len`: `self.items.len()`. -/
def IsizeVec.len (v : IsizeVec T) : Nat := v.items.length

/-- `IsizeVec::is_empty`: `self.items.is_empty()`. -/
def IsizeVec.is_empty (v : IsizeVec T) : Bool := v.items.isEmpty

/-- `IsizeVec::push`: append the item with order `isize::MAX`, return the new
index `self.items.len() - 1`. -/
def IsizeVec.push (v : IsizeVec T) (item : T) : IsizeVec T × Nat :=
  (⟨v.items ++ [item], v.order ++ [isizeMax]⟩, v.items.length)

/-- `IsizeVec::pop`: remove and return the last `(item, order)` pair. -/
def IsizeVec.pop (v : IsizeVec T) : Option ((T × Int) × IsizeVec T) :=
  match v.items.getLast?, v.order.getLast? with
  | some x, some k => some ((x, k), ⟨v.items.dropLast, v.order.dropLast⟩)
  | _, _ => none

/-- `IsizeVec::get`: `self.items.get(index)`, bounds-checked. -/
def IsizeVec.get (v : IsizeVec T) (index : Nat) : Option T := v.items[index]?

/-- `IsizeVec::get_mut`: same bounds behaviour as `get` (a mutable borrow is
observationally the looked-up value in this embedding). -/
def IsizeVec.get_mut (v : IsizeVec T) (index : Nat) : Option T := v.items[index]?

/-- The direct indexing operator `Index::index` on a single `usize`:
`&self.items[index]`, which panics out of bounds (`none` here). -/
def IsizeVec.index (v : IsizeVec T) (i : Nat) : Option T := v.items[i]?

/-- `IsizeVec::extract`: return the backing items vector and clear the
container (order cleared, items replaced by an empty vector). -/
def IsizeVec.extract (v : IsizeVec T) : List T × IsizeVec T :=
  (v.items, ⟨[], []⟩)

/-- The loop of Rust `slice::binary_search` specialised to `isize` keys:
`left`/`right` bracket the search window, `mid = left + size / 2` with
`size = right - left`; returns `Sum.inr mid` when the probe hits an equal
element (Rust `Ok(mid)`) and `Sum.inl left` when the window becomes empty
(Rust `Err(left)`). -/
def binarySearchLoop (l : List Int) (key : Int) (left right : Nat) : Sum Nat Nat :=
  if _h : left < right then
    if l.getD (left + (right - left) / 2) 0 < key then
      binarySearchLoop l key (left + (right - left) / 2 + 1) right
    else if key < l.getD (left + (right - left) / 2) 0 then
      binarySearchLoop l key left (left + (right - left) / 2)
    else Sum.inr (left + (right - left) / 2)
  else Sum.inl left
termination_by right - left
decreasing_by all_goals omega

/-- Rust `self.order.binary_search(&relative)`. -/
def binarySearch (l : List Int) (key : Int) : Sum Nat Nat :=
  binarySearchLoop l key 0 l.length

/-- Rust `iter().enumerate().find(|(_, &x)| x != relative)` over a slice of
keys: the index of the first element different from `key`, if any. -/
def findNe (key : Int) : List Int → Option Nat
  | [] => none
  | x :: xs => if x ≠ key then some 0 else (findNe key xs).map (· + 1)

/-- `IsizeVec::insert`: binary-search `order` for `relative`; on `Err(p)`
insert at `p`; on `Ok(exact)` scan forward past the equal run when
`relative >= 0` (append, pushing at the very end when the run reaches it) and
scan backward over `order[..exact]` when `relative < 0` (prepend, index 0 when
the whole left segment is equal).  Returns the updated container and the
insertion index. -/
def IsizeVec.insert (v : IsizeVec T) (relative : Int) (item : T) : IsizeVec T × Nat :=
  match binarySearch v.order relative with
  | Sum.inr exact =>
    if 0 ≤ relative then
      match findNe relative (v.order.drop exact) with
      | some idx =>
        (⟨v.items.insertIdx (exact + idx) item, v.order.insertIdx (exact + idx) relative⟩,
         exact + idx)
      | none =>
        (⟨v.items ++ [item], v.order ++ [relative]⟩, v.items.length)
    else
      match findNe relative (v.order.take exact).reverse with
      | some idx =>
        (⟨v.items.insertIdx (exact - idx) item, v.order.insertIdx (exact - idx) relative⟩,
         exact - idx)
      | none =>
        (⟨v.items.insertIdx 0 item, v.order.insertIdx 0 relative⟩, 0)
  | Sum.inl p =>
    (⟨v.items.insertIdx p item, v.order.insertIdx p relative⟩, p)

/-- `IsizeVec::remove`: `(self.items.remove(index), self.order.remove(index))`;
`Vec::remove` panics when the index is out of bounds (`none` here). -/
def IsizeVec.remove (v : IsizeVec T) (index : Nat) : Option ((T × Int) × IsizeVec T) :=
  match v.items[index]?, v.order[index]? with
  | some x, some k => some ((x, k), ⟨v.items.eraseIdx index, v.order.eraseIdx index⟩)
  | _, _ => none

/-- `IsizeVec::first_right_of`: binary-search for `relative`; on `Ok(exact)`
scan forward for the first different key (whole tail equal ⇒ `order.len()`);
on `Err(p)` return `p`. -/
def IsizeVec.first_right_of (v : IsizeVec T) (relative : Int) : Nat :=
  match binarySearch v.order relative with
  | Sum.inr exact =>
    match findNe relative (v.order.drop exact) with
    | some idx => exact + idx
    | none => v.order.length
  | Sum.inl p => p

/-- `IsizeVec::first_positive`: `self.first_right_of(-1)`. -/
def IsizeVec.first_positive (v : IsizeVec T) : Nat := v.first_right_of (-1)

/-- `IsizeVec::swap`: `self.items.swap(a, b)` — only the items vector is
touched; `slice::swap` panics when either index is out of bounds. -/
def IsizeVec.swap (v : IsizeVec T) (a b : Nat) : Option (IsizeVec T) :=
  match v.items[a]?, v.items[b]? with
  | some x, some y => some ⟨(v.items.set a y).set b x, v.order⟩
  | _, _ => none

/-- The closure state of `IsizeVec::retain`: walk the items with the running
counters `idx` (elements visited) and `removed` (elements dropped so far),
removing `order[idx - removed]` whenever the predicate rejects the item at
original position `idx`.  Returns the retained items and the final order. -/
def retainGo (f : T → Bool) : List T → Nat → Nat → List Int → List T × List Int
  | [], _, _, order => ([], order)
  | x :: xs, idx, removed, order =>
    if f x then
      let r := retainGo f xs (idx + 1) removed order
      (x :: r.1, r.2)
    else
      retainGo f xs (idx + 1) (removed + 1) (order.eraseIdx (idx - removed))

/-- `IsizeVec::retain`: `self.items.retain(..)` with the side-effecting
closure that keeps `order` aligned. -/
def IsizeVec.retain (v : IsizeVec T) (f : T → Bool) : IsizeVec T :=
  let r := retainGo f v.items 0 0 v.order
  ⟨r.1, r.2⟩

/-- Number of keys strictly below `key`: in a sorted key list, the index of
the start of the equal-`key` run (where a negative-key insert lands). -/
def lowerRun (l : List Int) (key : Int) : Nat := l.countP (fun x => decide (x < key))

/-- Number of keys at most `key`: in a sorted key list, the index one past the
equal-`key` run (where a non-negative-key insert lands). -/
def upperRun (l : List Int) (key : Int) : Nat := l.countP (fun x => decide (x ≤ key))

/-- The position at which `insert` places a pair with key `key`, as a function
of the key list: end of the equal run for non-negative keys, start of it for
negative keys. -/
def insPos (l : List Int) (key : Int) : Nat :=
  if 0 ≤ key then upperRun l key else lowerRun l key

/-- Fold a list of `(key, value)` operations through `insert`. -/
def insertAll (v : IsizeVec T) (ops : List (Int × T)) : IsizeVec T :=
  ops.foldl (fun s op => (s.insert op.1 op.2).1) v

/-- Insert the values of `vs`, in order, all with the same key `k`. -/
def insertSame (v : IsizeVec T) (k : Int) (vs : List T) : IsizeVec T :=
  insertAll v (vs.map (fun x => (k, x)))

/-! ### Sorted-list index lemmas -/

/-- In a non-decreasing key list, values are monotone in the index. -/
theorem sorted_getD_mono {l : List Int} (hs : l.Sorted (· ≤ ·)) {i j : Nat}
    (hij : i ≤ j) (hj : j < l.length) : l.getD i 0 ≤ l.getD j 0 := by
  rcases Nat.eq_or_lt_of_le hij with rfl | hlt
  · exact le_refl _
  · have hi : i < l.length := lt_trans hlt hj
    rw [List.getD_eq_getElem _ _ hi, List.getD_eq_getElem _ _ hj]
    exact (List.pairwise_iff_getElem.mp hs) i j hi hj hlt

/-- For a monotone-downward predicate on a sorted list, the indices whose
element satisfies the predicate are exactly those below the `countP`. -/
theorem countP_iff_of_sorted (p : Int → Bool)
    (hmono : ∀ x y : Int, x ≤ y → p y = true → p x = true) :
    ∀ l : List Int, l.Sorted (· ≤ ·) → ∀ i, i < l.length →
      (i < l.countP p ↔ p (l.getD i 0) = true) := by
  intro l
  induction l with
  | nil => intro _ i hi; simp at hi
  | cons a t ih =>
    intro hs i hi
    have hat := List.sorted_cons.mp hs
    by_cases hpa : p a = true
    · rw [List.countP_cons, if_pos hpa]
      cases i with
      | zero => simp [List.getD_cons_zero, hpa]
      | succ j =>
        have hj : j < t.length := by simpa using hi
        rw [List.getD_cons_succ]
        have hiff := ih hat.2 j hj
        constructor
        · intro h; exact hiff.mp (by omega)
        · intro h; have := hiff.mpr h; omega
    · have hzero : t.countP p = 0 := by
        rw [List.countP_eq_zero]
        intro b hb hpb
        exact hpa (hmono a b (hat.1 b hb) hpb)
      have hall : ∀ b ∈ a :: t, ¬ p b = true := by
        intro b hb
        rcases List.mem_cons.mp hb with rfl | hbt
        · exact fun h => hpa h
        · exact fun hpb => hpa (hmono a b (hat.1 b hbt) hpb)
      rw [List.countP_cons, if_neg hpa, hzero]
      constructor
      · intro h; exact absurd h (by omega)
      · intro h
        exfalso
        have hmem : (a :: t).getD i 0 ∈ a :: t := by
          rw [List.getD_eq_getElem _ _ hi]; exact List.getElem_mem hi
        exact hall _ hmem h

/-- A position that splits a list into a prefix satisfying `p` and a suffix
falsifying it equals the `countP`. -/
theorem pos_eq_countP (p : Int → Bool) :
    ∀ (l : List Int) (q : Nat), q ≤ l.length →
    (∀ i, i < q → p (l.getD i 0) = true) →
    (∀ i, q ≤ i → i < l.length → p (l.getD i 0) = false) →
    q = l.countP p := by
  intro l
  induction l with
  | nil => intro q hq _ _; simpa using hq
  | cons a t ih =>
    intro q hq hbefore hafter
    cases q with
    | zero =>
      have hzero : (a :: t).countP p = 0 := by
        rw [List.countP_eq_zero]
        intro b hb
        rcases List.mem_iff_getElem.mp hb with ⟨i, hi, rfl⟩
        have hfa := hafter i (Nat.zero_le i) hi
        rw [List.getD_eq_getElem _ 0 hi] at hfa
        simp [hfa]
      omega
    | succ j =>
      have hpa : p a = true := by
        have := hbefore 0 (Nat.succ_pos j)
        simpa [List.getD_cons_zero] using this
      have hj : j = t.countP p := by
        refine ih j (by simpa using hq) ?_ ?_
        · intro i hi
          have := hbefore (i + 1) (by omega)
          simpa [List.getD_cons_succ] using this
        · intro i hji hi
          have := hafter (i + 1) (by omega) (by simpa using hi)
          simpa [List.getD_cons_succ] using this
      rw [List.countP_cons, if_pos hpa]
      omega

/-- Loop invariant and postcondition of `binarySearchLoop` on a sorted list:
`Ok` hits an equal element, `Err` returns the unique boundary between the
keys strictly below and strictly above the searched key. -/
theorem binarySearchLoop_spec (l : List Int) (key : Int) (hs : l.Sorted (· ≤ ·)) :
    ∀ (n left right : Nat), right - left ≤ n → left ≤ right → right ≤ l.length →
    (∀ i, i < left → l.getD i 0 < key) →
    (∀ i, right ≤ i → i < l.length → key < l.getD i 0) →
    (match binarySearchLoop l key left right with
     | Sum.inr m => m < l.length ∧ l.getD m 0 = key
     | Sum.inl p => p ≤ l.length ∧ (∀ i, i < p → l.getD i 0 < key) ∧
         (∀ i, p ≤ i → i < l.length → key < l.getD i 0)) := by
  intro n
  induction n with
  | zero =>
    intro left right hn hlr hrl hbefore hafter
    have hleft : ¬ left < right := by omega
    rw [binarySearchLoop, dif_neg hleft]
    exact ⟨by omega, hbefore, fun i hi hil => hafter i (by omega) hil⟩
  | succ n ih =>
    intro left right hn hlr hrl hbefore hafter
    by_cases hleft : left < right
    · have hmidlt : left + (right - left) / 2 < right := by omega
      have hmidge : left ≤ left + (right - left) / 2 := by omega
      have hmidlen : left + (right - left) / 2 < l.length := by omega
      rw [binarySearchLoop, dif_pos hleft]
      by_cases hx : l.getD (left + (right - left) / 2) 0 < key
      · rw [if_pos hx]
        refine ih (left + (right - left) / 2 + 1) right (by omega) (by omega) hrl ?_ hafter
        intro i hi
        by_cases hil : i < left
        · exact hbefore i hil
        · exact lt_of_le_of_lt
            (sorted_getD_mono hs (by omega) hmidlen) hx
      · rw [if_neg hx]
        by_cases hy : key < l.getD (left + (right - left) / 2) 0
        · rw [if_pos hy]
          refine ih left (left + (right - left) / 2) (by omega) (by omega) (by omega) hbefore ?_
          intro i hi hil
          exact lt_of_lt_of_le hy (sorted_getD_mono hs hi hil)
        · rw [if_neg hy]
          exact ⟨hmidlen, by omega⟩
    · rw [binarySearchLoop, dif_neg hleft]
      exact ⟨by omega, hbefore, fun i hi hil => hafter i (by omega) hil⟩

/-- `binary_search` returning `Ok(m)` hits an element equal to the key. -/
theorem binarySearch_inr {l : List Int} {key : Int} (hs : l.Sorted (· ≤ ·))
    {m : Nat} (h : binarySearch l key = Sum.inr m) :
    m < l.length ∧ l.getD m 0 = key := by
  have := binarySearchLoop_spec l key hs l.length 0 l.length (by omega) (by omega)
    (le_refl _) (by omega) (by omega)
  rw [binarySearch] at h
  rw [h] at this
  exact this

/-- `binary_search` returning `Err(p)` yields the boundary index: everything
before `p` is strictly below the key, everything from `p` on strictly above. -/
theorem binarySearch_inl {l : List Int} {key : Int} (hs : l.Sorted (· ≤ ·))
    {p : Nat} (h : binarySearch l key = Sum.inl p) :
    p ≤ l.length ∧ (∀ i, i < p → l.getD i 0 < key) ∧
      (∀ i, p ≤ i → i < l.length → key < l.getD i 0) := by
  have := binarySearchLoop_spec l key hs l.length 0 l.length (by omega) (by omega)
    (le_refl _) (by omega) (by omega)
  rw [binarySearch] at h
  rw [h] at this
  exact this

/-- `findNe` returning `some idx` finds the first element different from the
key: everything before it is equal, the element there differs. -/
theorem findNe_some {key : Int} :
    ∀ {m : List Int} {idx : Nat}, findNe key m = some idx →
    idx < m.length ∧ m.getD idx 0 ≠ key ∧ ∀ j, j < idx → m.getD j 0 = key := by
  intro m
  induction m with
  | nil => intro idx h; simp [findNe] at h
  | cons x xs ih =>
    intro idx h
    rw [findNe] at h
    by_cases hx : x ≠ key
    · rw [if_pos hx] at h
      cases h
      exact ⟨by simp, by simpa [List.getD_cons_zero] using hx, fun j hj => by omega⟩
    · rw [if_neg hx] at h
      push_neg at hx
      cases hidx : findNe key xs with
      | none => rw [hidx] at h; simp at h
      | some i =>
        rw [hidx] at h
        have h' : idx = i + 1 := by simpa using h.symm
        subst h'
        obtain ⟨hi, hne, hbefore⟩ := ih hidx
        refine ⟨by simpa using Nat.succ_lt_succ hi, by simpa [List.getD_cons_succ] using hne, ?_⟩
        intro j hj
        cases j with
        | zero => simpa [List.getD_cons_zero] using hx
        | succ j' => rw [List.getD_cons_succ]; exact hbefore j' (by omega)

/-- `findNe` returning `none` means the whole list equals the key. -/
theorem findNe_none {key : Int} :
    ∀ {m : List Int}, findNe key m = none → ∀ j, j < m.length → m.getD j 0 = key := by
  intro m
  induction m with
  | nil => intro _ j hj; simp at hj
  | cons x xs ih =>
    intro h j hj
    rw [findNe] at h
    by_cases hx : x ≠ key
    · rw [if_pos hx] at h; cases h
    · rw [if_neg hx] at h
      push_neg at hx
      cases j with
      | zero => simpa [List.getD_cons_zero] using hx
      | succ j' =>
        rw [List.getD_cons_succ]
        cases hidx : findNe key xs with
        | none => exact ih hidx j' (by simpa using hj)
        | some i => rw [hidx] at h; simp at h

/-- Indexing into a dropped suffix, in `getD` form. -/
theorem getD_drop_eq {l : List Int} {e j : Nat} (h : e + j < l.length) :
    (l.drop e).getD j 0 = l.getD (e + j) 0 := by
  have hj : j < (l.drop e).length := by
    rw [List.length_drop]; omega
  rw [List.getD_eq_getElem _ 0 hj, List.getD_eq_getElem _ 0 h]
  exact List.getElem_drop l

/-- Indexing into the reversal of a taken prefix, in `getD` form. -/
theorem getD_take_reverse_eq {l : List Int} {e j : Nat} (hj : j < e) (he : e ≤ l.length) :
    ((l.take e).reverse).getD j 0 = l.getD (e - 1 - j) 0 := by
  have hlen : (l.take e).length = e := by
    rw [List.length_take]; omega
  have hjr : j < (l.take e).reverse.length := by
    rw [List.length_reverse, hlen]; omega
  have hjt : e - 1 - j < (l.take e).length := by omega
  have hel : e - 1 - j < l.length := by omega
  rw [List.getD_eq_getElem _ 0 hjr, List.getD_eq_getElem _ 0 hel]
  rw [List.getElem_reverse]
  have : (l.take e).length - 1 - j = e - 1 - j := by omega
  simp only [this]
  exact List.getElem_take l

/-- Forward scan from a hit: the insertion index of the non-negative branch is
the end of the equal-key run, `upperRun`. -/
theorem fwd_scan_some {l : List Int} {key : Int} {e idx : Nat}
    (hs : l.Sorted (· ≤ ·)) (he : e < l.length) (hkey : l.getD e 0 = key)
    (h : findNe key (l.drop e) = some idx) :
    e + idx = upperRun l key := by
  obtain ⟨hidx, hne, hbefore⟩ := findNe_some h
  rw [List.length_drop] at hidx
  have hq : e + idx < l.length := by omega
  have hrun : ∀ j, j < idx → l.getD (e + j) 0 = key := by
    intro j hj
    have := hbefore j hj
    rwa [getD_drop_eq (by omega)] at this
  have hne' : l.getD (e + idx) 0 ≠ key := by
    rwa [getD_drop_eq hq] at hne
  have hgt : key < l.getD (e + idx) 0 := by
    have hge : l.getD e 0 ≤ l.getD (e + idx) 0 :=
      sorted_getD_mono hs (by omega) hq
    rw [hkey] at hge
    omega
  refine pos_eq_countP _ l (e + idx) (by omega) ?_ ?_
  · intro i hi
    simp only [decide_eq_true_eq]
    by_cases hie : i < e
    · have := sorted_getD_mono hs (le_of_lt hie) he
      omega
    · have : l.getD i 0 = key := by
        have := hrun (i - e) (by omega)
        rwa [show e + (i - e) = i by omega] at this
      omega
  · intro i hi hil
    simp only [decide_eq_false_iff_not, not_le]
    exact lt_of_lt_of_le hgt (sorted_getD_mono hs hi hil)

/-- Forward scan from a hit finding nothing: the run reaches the end, so the
non-negative branch appends and `upperRun` is the length. -/
theorem fwd_scan_none {l : List Int} {key : Int} {e : Nat}
    (hs : l.Sorted (· ≤ ·)) (he : e < l.length) (hkey : l.getD e 0 = key)
    (h : findNe key (l.drop e) = none) :
    upperRun l key = l.length := by
  have hall : ∀ i, e ≤ i → i < l.length → l.getD i 0 = key := by
    intro i hle hil
    have := findNe_none h (i - e) (by rw [List.length_drop]; omega)
    rwa [getD_drop_eq (by omega), show e + (i - e) = i by omega] at this
  refine (pos_eq_countP _ l l.length (le_refl _) ?_ ?_).symm
  · intro i hi
    simp only [decide_eq_true_eq]
    by_cases hie : i < e
    · have := sorted_getD_mono hs (le_of_lt hie) he
      omega
    · have := hall i (by omega) hi
      omega
  · intro i hi hil; omega

/-- Backward scan from a hit: the insertion index of the negative branch is
the start of the equal-key run, `lowerRun`. -/
theorem bwd_scan_some {l : List Int} {key : Int} {e idx : Nat}
    (hs : l.Sorted (· ≤ ·)) (he : e < l.length) (hkey : l.getD e 0 = key)
    (h : findNe key (l.take e).reverse = some idx) :
    e - idx = lowerRun l key := by
  obtain ⟨hidx, hne, hbefore⟩ := findNe_some h
  rw [List.length_reverse, List.length_take] at hidx
  have hidxe : idx < e := by omega
  have hne' : l.getD (e - 1 - idx) 0 ≠ key := by
    rwa [getD_take_reverse_eq hidxe (by omega)] at hne
  have hlt : l.getD (e - 1 - idx) 0 < key := by
    have := sorted_getD_mono hs (show e - 1 - idx ≤ e by omega) he
    rw [hkey] at this
    omega
  have hrun : ∀ j, j < idx → l.getD (e - 1 - j) 0 = key := by
    intro j hj
    have := hbefore j hj
    rwa [getD_take_reverse_eq (by omega) (by omega)] at this
  refine pos_eq_countP _ l (e - idx) (by omega) ?_ ?_
  · intro i hi
    simp only [decide_eq_true_eq]
    exact lt_of_le_of_lt (sorted_getD_mono hs (show i ≤ e - 1 - idx by omega) (by omega)) hlt
  · intro i hi hil
    simp only [decide_eq_false_iff_not, not_lt]
    by_cases hie : i < e
    · have := hrun (e - 1 - i) (by omega)
      rw [show e - 1 - (e - 1 - i) = i by omega] at this
      omega
    · have := sorted_getD_mono hs (show e ≤ i by omega) hil
      omega

/-- Backward scan from a hit finding nothing: the whole prefix is the run, so
the negative branch prepends at index 0 and `lowerRun` is zero. -/
theorem bwd_scan_none {l : List Int} {key : Int} {e : Nat}
    (hs : l.Sorted (· ≤ ·)) (he : e < l.length) (hkey : l.getD e 0 = key)
    (h : findNe key (l.take e).reverse = none) :
    lowerRun l key = 0 := by
  have hall : ∀ i, i < e → l.getD i 0 = key := by
    intro i hie
    have := findNe_none h (e - 1 - i) (by rw [List.length_reverse, List.length_take]; omega)
    rwa [getD_take_reverse_eq (by omega) (by omega),
      show e - 1 - (e - 1 - i) = i by omega] at this
  refine (pos_eq_countP _ l 0 (by omega) (by omega) ?_).symm
  intro i _ hil
  simp only [decide_eq_false_iff_not, not_lt]
  by_cases hie : i < e
  · have := hall i hie; omega
  · have := sorted_getD_mono hs (show e ≤ i by omega) hil
    omega

/-- A miss of the binary search: the `Err` index is simultaneously the lower
and the upper boundary of the (empty) equal-key run. -/
theorem err_runs {l : List Int} {key : Int} {p : Nat} (hs : l.Sorted (· ≤ ·))
    (h : binarySearch l key = Sum.inl p) :
    p = lowerRun l key ∧ p = upperRun l key := by
  obtain ⟨hp, hbefore, hafter⟩ := binarySearch_inl hs h
  constructor
  · refine pos_eq_countP _ l p hp ?_ ?_
    · intro i hi
      simp only [decide_eq_true_eq]
      exact hbefore i hi
    · intro i hi hil
      simp only [decide_eq_false_iff_not, not_lt]
      exact le_of_lt (hafter i hi hil)
  · refine pos_eq_countP _ l p hp ?_ ?_
    · intro i hi
      simp only [decide_eq_true_eq]
      exact le_of_lt (hbefore i hi)
    · intro i hi hil
      simp only [decide_eq_false_iff_not, not_le]
      exact hafter i hi hil

/-- The insertion position never exceeds the length of the key list. -/
theorem insPos_le (l : List Int) (key : Int) : insPos l key ≤ l.length := by
  rw [insPos]
  by_cases h : 0 ≤ key
  · rw [if_pos h]; exact List.countP_le_length _
  · rw [if_neg h]; exact List.countP_le_length _

/-- Master characterisation of `insert` on a container satisfying the
invariants: both sequences receive the new pair at index `insPos`, and that
index is returned. -/
theorem insert_eq {T : Type} (v : IsizeVec T) (key : Int) (x : T)
    (hs : v.order.Sorted (· ≤ ·)) (hlen : v.items.length = v.order.length) :
    v.insert key x =
      (⟨v.items.insertIdx (insPos v.order key) x,
        v.order.insertIdx (insPos v.order key) key⟩, insPos v.order key) := by
  cases hbs : binarySearch v.order key with
  | inl p =>
    obtain ⟨hlow, hupp⟩ := err_runs hs hbs
    simp only [IsizeVec.insert, hbs, insPos]
    by_cases hkey : 0 ≤ key
    · rw [if_pos hkey, ← hupp]
    · rw [if_neg hkey, ← hlow]
  | inr e =>
    obtain ⟨he, hkeyat⟩ := binarySearch_inr hs hbs
    simp only [IsizeVec.insert, hbs]
    by_cases hkey : 0 ≤ key
    · rw [if_pos hkey]
      cases hf : findNe key (v.order.drop e) with
      | some idx =>
        have hpos := fwd_scan_some hs he hkeyat hf
        rw [insPos, if_pos hkey, ← hpos]
      | none =>
        have hup := fwd_scan_none hs he hkeyat hf
        rw [insPos, if_pos hkey, hup, ← hlen, List.insertIdx_length_self, hlen,
          List.insertIdx_length_self]
    · rw [if_neg hkey]
      cases hf : findNe key (v.order.take e).reverse with
      | some idx =>
        have hpos := bwd_scan_some hs he hkeyat hf
        rw [insPos, if_neg hkey, ← hpos]
      | none =>
        have hlow := bwd_scan_none hs he hkeyat hf
        rw [insPos, if_neg hkey, hlow]

/-- Keys strictly before the insertion position are at most the new key. -/
theorem insPos_before {l : List Int} {key : Int} (hs : l.Sorted (· ≤ ·)) :
    ∀ i, i < insPos l key → l.getD i 0 ≤ key := by
  intro i hi
  have hil : i < l.length := lt_of_lt_of_le hi (insPos_le l key)
  rw [insPos] at hi
  by_cases hkey : 0 ≤ key
  · rw [if_pos hkey] at hi
    have := (countP_iff_of_sorted (fun x => decide (x ≤ key))
      (fun a b hab hb => by simp only [decide_eq_true_eq] at *; omega) l hs i hil).mp hi
    simpa using this
  · rw [if_neg hkey] at hi
    have := (countP_iff_of_sorted (fun x => decide (x < key))
      (fun a b hab hb => by simp only [decide_eq_true_eq] at *; omega) l hs i hil).mp hi
    simp only [decide_eq_true_eq] at this
    omega

/-- Keys at or after the insertion position are at least the new key. -/
theorem insPos_after {l : List Int} {key : Int} (hs : l.Sorted (· ≤ ·)) :
    ∀ i, insPos l key ≤ i → i < l.length → key ≤ l.getD i 0 := by
  intro i hi hil
  rw [insPos] at hi
  by_cases hkey : 0 ≤ key
  · rw [if_pos hkey, upperRun] at hi
    have hiff := (countP_iff_of_sorted (fun x => decide (x ≤ key))
      (fun a b hab hb => by simp only [decide_eq_true_eq] at *; omega) l hs i hil)
    have hnot : ¬ l.getD i 0 ≤ key := by
      intro hle
      have := hiff.mpr (by simpa using hle)
      omega
    omega
  · rw [if_neg hkey, lowerRun] at hi
    have hiff := (countP_iff_of_sorted (fun x => decide (x < key))
      (fun a b hab hb => by simp only [decide_eq_true_eq] at *; omega) l hs i hil)
    have hnot : ¬ l.getD i 0 < key := by
      intro hle
      have := hiff.mpr (by simpa using hle)
      omega
    omega

/-- Inserting a key between a dominated prefix and a dominating suffix keeps
the key list sorted. -/
theorem sorted_insertIdx_of_bounds (key : Int) :
    ∀ (p : Nat) (l : List Int), l.Sorted (· ≤ ·) → p ≤ l.length →
    (∀ i, i < p → l.getD i 0 ≤ key) →
    (∀ i, p ≤ i → i < l.length → key ≤ l.getD i 0) →
    (l.insertIdx p key).Sorted (· ≤ ·) := by
  intro p
  induction p with
  | zero =>
    intro l hs _ _ hafter
    rw [List.insertIdx_zero, List.sorted_cons]
    refine ⟨?_, hs⟩
    intro b hb
    rcases List.mem_iff_getElem.mp hb with ⟨i, hi, rfl⟩
    have := hafter i (Nat.zero_le i) hi
    rwa [List.getD_eq_getElem _ 0 hi] at this
  | succ q ih =>
    intro l hs hp hbefore hafter
    cases l with
    | nil => simp at hp
    | cons a t =>
      rw [List.insertIdx_succ_cons, List.sorted_cons]
      have hat := List.sorted_cons.mp hs
      have hq : q ≤ t.length := by simpa using hp
      constructor
      · intro b hb
        rcases (List.mem_insertIdx hq).mp hb with rfl | hbt
        · have := hbefore 0 (Nat.succ_pos q)
          simpa [List.getD_cons_zero] using this
        · exact hat.1 b hbt
      · refine ih t hat.2 hq ?_ ?_
        · intro i hi
          have := hbefore (i + 1) (by omega)
          simpa [List.getD_cons_succ] using this
        · intro i hi hil
          have := hafter (i + 1) (by omega) (by simpa using hil)
          simpa [List.getD_cons_succ] using this

/-- `insert` preserves the two structural invariants: the key list stays
sorted and the two sequences keep equal lengths. -/
theorem insert_invariant {T : Type} (v : IsizeVec T) (key : Int) (x : T)
    (hs : v.order.Sorted (· ≤ ·)) (hlen : v.items.length = v.order.length) :
    (v.insert key x).1.order.Sorted (· ≤ ·) ∧
      (v.insert key x).1.items.length = (v.insert key x).1.order.length := by
  rw [insert_eq v key x hs hlen]
  constructor
  · exact sorted_insertIdx_of_bounds key _ v.order hs (insPos_le _ _)
      (insPos_before hs) (insPos_after hs)
  · rw [List.length_insertIdx _ _ (le_trans (insPos_le _ _) (le_of_eq hlen.symm)),
      List.length_insertIdx _ _ (insPos_le _ _), hlen]

/-! ### `insertIdx` take/drop bookkeeping -/

theorem insertIdx_take_succ {α : Type _} (y : α) :
    ∀ (p : Nat) (l : List α), p ≤ l.length →
    (l.insertIdx p y).take (p + 1) = l.take p ++ [y] := by
  intro p
  induction p with
  | zero => intro l _; simp [List.insertIdx_zero]
  | succ q ih =>
    intro l hp
    cases l with
    | nil => simp at hp
    | cons a t =>
      rw [List.insertIdx_succ_cons, List.take_succ_cons, ih t (by simpa using hp),
        List.take_succ_cons, List.cons_append]

theorem insertIdx_drop_succ {α : Type _} (y : α) :
    ∀ (p : Nat) (l : List α), p ≤ l.length →
    (l.insertIdx p y).drop (p + 1) = l.drop p := by
  intro p
  induction p with
  | zero => intro l _; simp [List.insertIdx_zero]
  | succ q ih =>
    intro l hp
    cases l with
    | nil => simp at hp
    | cons a t =>
      rw [List.insertIdx_succ_cons, List.drop_succ_cons, ih t (by simpa using hp),
        List.drop_succ_cons]

theorem insertIdx_take_self {α : Type _} (y : α) :
    ∀ (p : Nat) (l : List α), (l.insertIdx p y).take p = l.take p := by
  intro p
  induction p with
  | zero => intro l; simp
  | succ q ih =>
    intro l
    cases l with
    | nil => simp [List.insertIdx]
    | cons a t =>
      rw [List.insertIdx_succ_cons, List.take_succ_cons, ih t, List.take_succ_cons]

theorem insertIdx_drop_self {α : Type _} (y : α) :
    ∀ (p : Nat) (l : List α), p ≤ l.length →
    (l.insertIdx p y).drop p = y :: l.drop p := by
  intro p
  induction p with
  | zero => intro l _; simp [List.insertIdx_zero]
  | succ q ih =>
    intro l hp
    cases l with
    | nil => simp at hp
    | cons a t =>
      rw [List.insertIdx_succ_cons, List.drop_succ_cons, ih t (by simpa using hp),
        List.drop_succ_cons]

/-- Inserting the key itself grows the `≤ key` count by one. -/
theorem upperRun_insertIdx {l : List Int} {key : Int} {p : Nat} (hp : p ≤ l.length) :
    upperRun (l.insertIdx p key) key = upperRun l key + 1 := by
  rw [upperRun, upperRun, (List.perm_insertIdx key l hp).countP_eq, List.countP_cons]
  simp

/-- Inserting the key itself leaves the `< key` count unchanged. -/
theorem lowerRun_insertIdx {l : List Int} {key : Int} {p : Nat} (hp : p ≤ l.length) :
    lowerRun (l.insertIdx p key) key = lowerRun l key := by
  rw [lowerRun, lowerRun, (List.perm_insertIdx key l hp).countP_eq, List.countP_cons]
  simp

theorem insertAll_cons {T : Type} (v : IsizeVec T) (op : Int × T) (ops : List (Int × T)) :
    insertAll v (op :: ops) = insertAll (v.insert op.1 op.2).1 ops := rfl

theorem insertSame_cons {T : Type} (v : IsizeVec T) (k : Int) (x : T) (vs : List T) :
    insertSame v k (x :: vs) = insertSame (v.insert k x).1 k vs := rfl

/-- Any fold of `insert`s preserves the structural invariants. -/
theorem insertAll_invariant {T : Type} :
    ∀ (ops : List (Int × T)) (v : IsizeVec T),
    v.order.Sorted (· ≤ ·) → v.items.length = v.order.length →
    (insertAll v ops).order.Sorted (· ≤ ·) ∧
      (insertAll v ops).items.length = (insertAll v ops).order.length := by
  intro ops
  induction ops with
  | nil => intro v hs hlen; exact ⟨hs, hlen⟩
  | cons op ops ih =>
    intro v hs hlen
    rw [insertAll_cons]
    obtain ⟨hs', hlen'⟩ := insert_invariant v op.1 op.2 hs hlen
    exact ih _ hs' hlen'

/-- C1: inserting `v0, …, v(n-1)` in that order, all with the same
non-negative key `k`, into a collection satisfying the invariants places them
left-to-right in exactly that order (as a contiguous block at the end of the
equal-key run). -/
theorem insert_fifo_nonneg {T : Type} (v : IsizeVec T) (k : Int) (vs : List T)
    (hk : 0 ≤ k) (hs : v.order.Sorted (· ≤ ·)) (hlen : v.items.length = v.order.length) :
    (insertSame v k vs).items =
      v.items.take (upperRun v.order k) ++ vs ++ v.items.drop (upperRun v.order k) := by
  induction vs generalizing v with
  | nil => simp [insertSame, insertAll]
  | cons x vs ih =>
    rw [insertSame_cons]
    have hins := insert_eq v k x hs hlen
    have hpos : insPos v.order k = upperRun v.order k := by rw [insPos, if_pos hk]
    obtain ⟨hs', hlen'⟩ := insert_invariant v k x hs hlen
    rw [ih _ hs' hlen', hins]
    dsimp only
    rw [hpos]
    have hple : upperRun v.order k ≤ v.order.length := List.countP_le_length _
    have hpleI : upperRun v.order k ≤ v.items.length := by omega
    rw [upperRun_insertIdx hple, insertIdx_take_succ x _ _ hpleI,
      insertIdx_drop_succ x _ _ hpleI]
    simp

/-- C2: inserting `v0, …, v(n-1)` in that order, all with the same negative
key `k`, into a collection satisfying the invariants places them left-to-right
in reverse order (each lands at the start of the equal-key run). -/
theorem insert_lifo_neg {T : Type} (v : IsizeVec T) (k : Int) (vs : List T)
    (hk : k < 0) (hs : v.order.Sorted (· ≤ ·)) (hlen : v.items.length = v.order.length) :
    (insertSame v k vs).items =
      v.items.take (lowerRun v.order k) ++ vs.reverse ++ v.items.drop (lowerRun v.order k) := by
  induction vs generalizing v with
  | nil => simp [insertSame, insertAll]
  | cons x vs ih =>
    rw [insertSame_cons]
    have hins := insert_eq v k x hs hlen
    have hpos : insPos v.order k = lowerRun v.order k := by
      rw [insPos, if_neg (by omega)]
    obtain ⟨hs', hlen'⟩ := insert_invariant v k x hs hlen
    rw [ih _ hs' hlen', hins]
    dsimp only
    rw [hpos]
    have hple : lowerRun v.order k ≤ v.order.length := List.countP_le_length _
    have hpleI : lowerRun v.order k ≤ v.items.length := by omega
    rw [lowerRun_insertIdx hple, insertIdx_take_self, insertIdx_drop_self x _ _ hpleI]
    simp

/-- C3: after any sequence of `insert` calls starting from the empty
collection (no `swap`), the key sequence is non-decreasing. -/
theorem insertAll_sorted (T : Type) (ops : List (Int × T)) :
    (insertAll (IsizeVec.new T) ops).order.Sorted (· ≤ ·) :=
  (insertAll_invariant ops (IsizeVec.new T) List.sorted_nil rfl).1

/-- `first_right_of` computes the end of the equal-or-below region. -/
theorem first_right_of_eq {T : Type} (v : IsizeVec T) (k : Int)
    (hs : v.order.Sorted (· ≤ ·)) :
    v.first_right_of k = upperRun v.order k := by
  cases hbs : binarySearch v.order k with
  | inl p =>
    obtain ⟨_, hupp⟩ := err_runs hs hbs
    simp only [IsizeVec.first_right_of, hbs]
    exact hupp
  | inr e =>
    obtain ⟨he, hkeyat⟩ := binarySearch_inr hs hbs
    simp only [IsizeVec.first_right_of, hbs]
    cases hf : findNe k (v.order.drop e) with
    | some idx => exact fwd_scan_some hs he hkeyat hf
    | none => exact (fwd_scan_none hs he hkeyat hf).symm

/-- C4: on a collection with non-decreasing keys, `first_right_of k` is the
smallest index whose key exceeds `k` — every key before it is at most `k`,
the key at it (when it is not `len`) exceeds `k`, and it never exceeds
`len`. -/
theorem first_right_of_least_gt {T : Type} (v : IsizeVec T) (k : Int)
    (hs : v.order.Sorted (· ≤ ·)) :
    v.first_right_of k ≤ v.order.length ∧
    (∀ j, j < v.first_right_of k → v.order.getD j 0 ≤ k) ∧
    (v.first_right_of k < v.order.length → k < v.order.getD (v.first_right_of k) 0) := by
  rw [first_right_of_eq v k hs]
  refine ⟨List.countP_le_length _, ?_, ?_⟩
  · intro j hj
    have hjl : j < v.order.length := lt_of_lt_of_le hj (List.countP_le_length _)
    have := (countP_iff_of_sorted (fun x => decide (x ≤ k))
      (fun a b hab hb => by simp only [decide_eq_true_eq] at *; omega)
      v.order hs j hjl).mp hj
    simpa using this
  · intro hlt
    by_contra h
    push_neg at h
    have := (countP_iff_of_sorted (fun x => decide (x ≤ k))
      (fun a b hab hb => by simp only [decide_eq_true_eq] at *; omega)
      v.order hs _ hlt).mpr (by simpa using h)
    rw [upperRun] at this
    exact lt_irrefl _ this

/-! ### `retain` -/

/-- Erasing at the junction of an append removes the head of the suffix. -/
theorem eraseIdx_append_cons {α : Type _} :
    ∀ (pre : List α) (k : α) (ks : List α),
    (pre ++ k :: ks).eraseIdx pre.length = pre ++ ks := by
  intro pre k ks
  induction pre with
  | nil => simp
  | cons a pre ih => simpa using ih

/-- The `retain` closure walks the items, erasing from `order` exactly the key
aligned with each rejected item: starting from a processed prefix `pre` of
kept keys, it returns the filtered items and `pre` followed by the keys of the
kept pairs. -/
theorem retainGo_spec {T : Type} (f : T → Bool) :
    ∀ (xs : List T) (ks pre : List Int) (idx removed : Nat),
    pre.length = idx - removed → removed ≤ idx → ks.length = xs.length →
    retainGo f xs idx removed (pre ++ ks) =
      (xs.filter f, pre ++ ((xs.zip ks).filter (fun q => f q.1)).map Prod.snd) := by
  intro xs
  induction xs with
  | nil =>
    intro ks pre idx removed _ _ hks
    have : ks = [] := List.length_eq_zero.mp (by simpa using hks)
    subst this
    simp [retainGo]
  | cons x xs ih =>
    intro ks pre idx removed hpre hr hks
    cases ks with
    | nil => simp at hks
    | cons k ks =>
      simp only [retainGo]
      by_cases hfx : f x = true
      · rw [if_pos hfx]
        have hsplit : pre ++ k :: ks = (pre ++ [k]) ++ ks := by simp
        rw [hsplit, ih ks (pre ++ [k]) (idx + 1) removed
          (by simp; omega) (by omega) (by simpa using hks)]
        simp [hfx]
      · rw [if_neg hfx]
        rw [show idx - removed = pre.length from hpre.symm, eraseIdx_append_cons]
        rw [ih ks pre (idx + 1) (removed + 1) (by omega) (by omega) (by simpa using hks)]
        simp [hfx]

/-- Zipping the two projections of a pair list recovers it. -/
theorem zip_fst_snd {α β : Type _} :
    ∀ (z : List (α × β)), (z.map Prod.fst).zip (z.map Prod.snd) = z := by
  intro z
  induction z with
  | nil => rfl
  | cons q z ih => simp [ih]

/-- The first projections of the kept pairs of a zip are the kept values. -/
theorem map_fst_filter_zip {T : Type} (f : T → Bool) :
    ∀ (xs : List T) (ks : List Int), ks.length = xs.length →
    (((xs.zip ks).filter (fun q => f q.1)).map Prod.fst) = xs.filter f := by
  intro xs
  induction xs with
  | nil => intro ks _; simp
  | cons x xs ih =>
    intro ks hks
    cases ks with
    | nil => simp at hks
    | cons k ks =>
      by_cases hfx : f x = true
      · simp [hfx, ih ks (by simpa using hks)]
      · simp [hfx, ih ks (by simpa using hks)]

/-- C5: after `retain f` the surviving values are exactly those satisfying the
predicate, in their original relative order; each keeps its originally
associated key, and the two sequences keep equal length. -/
theorem retain_sync {T : Type} (v : IsizeVec T) (f : T → Bool)
    (hlen : v.items.length = v.order.length) :
    (v.retain f).items = v.items.filter f ∧
    (v.retain f).items.zip (v.retain f).order =
      (v.items.zip v.order).filter (fun q => f q.1) ∧
    (v.retain f).items.length = (v.retain f).order.length := by
  have hgo := retainGo_spec f v.items v.order [] 0 0 rfl (le_refl 0) hlen.symm
  rw [List.nil_append] at hgo
  have hitems : (v.retain f).items = v.items.filter f := by
    rw [IsizeVec.retain]
    dsimp only
    rw [hgo]
  have horder : (v.retain f).order =
      ((v.items.zip v.order).filter (fun q => f q.1)).map Prod.snd := by
    rw [IsizeVec.retain]
    dsimp only
    rw [hgo]
    simp
  refine ⟨hitems, ?_, ?_⟩
  · rw [hitems, horder, ← map_fst_filter_zip f v.items v.order hlen.symm, zip_fst_snd]
  · rw [hitems, horder, List.length_map, ← map_fst_filter_zip f v.items v.order hlen.symm,
      List.length_map]

/-! ### `swap`, `remove`, error paths, `extract` -/

/-- C6: for in-bounds indices, `swap` succeeds, exchanges the values at the
two positions, leaves every other value in place, and leaves the whole key
sequence untouched. -/
theorem swap_values_only {T : Type} (v : IsizeVec T) (a b : Nat)
    (ha : a < v.len) (hb : b < v.len) :
    ∃ w, v.swap a b = some w ∧ w.order = v.order ∧
      w.items[a]? = v.items[b]? ∧ w.items[b]? = v.items[a]? ∧
      (∀ i, i ≠ a → i ≠ b → w.items[i]? = v.items[i]?) ∧
      w.items.length = v.items.length := by
  rw [IsizeVec.len] at ha hb
  have hga := List.getElem?_eq_getElem ha
  have hgb := List.getElem?_eq_getElem hb
  simp only [IsizeVec.swap, hga, hgb]
  refine ⟨_, rfl, rfl, ?_, ?_, ?_, ?_⟩
  · by_cases hab : a = b
    · subst hab
      rw [List.getElem?_set_self (by rw [List.length_set]; exact ha)]
    · rw [List.getElem?_set_ne (Ne.symm hab), List.getElem?_set_self ha]
  · rw [List.getElem?_set_self (by rw [List.length_set]; exact hb)]
  · intro i hia hib
    rw [List.getElem?_set_ne (Ne.symm hib), List.getElem?_set_ne (Ne.symm hia)]
  · rw [List.length_set, List.length_set]

/-- Zipping two lists after inserting a pair at the same position inserts the
pair into the zip. -/
theorem zip_insertIdx {α β : Type _} (x : α) (y : β) :
    ∀ (p : Nat) (A : List α) (B : List β), A.length = B.length → p ≤ A.length →
    (A.insertIdx p x).zip (B.insertIdx p y) = (A.zip B).insertIdx p (x, y) := by
  intro p
  induction p with
  | zero => intro A B _ _; simp [List.insertIdx_zero]
  | succ q ih =>
    intro A B hAB hp
    cases A with
    | nil => simp at hp
    | cons a A =>
      cases B with
      | nil => simp at hAB
      | cons b B =>
        simp only [List.insertIdx_succ_cons, List.zip_cons_cons]
        rw [ih A B (by simpa using hAB) (by simpa using hp)]

/-- Zipping two equal-length lists after erasing the same position erases that
position of the zip. -/
theorem zip_eraseIdx {α β : Type _} :
    ∀ (i : Nat) (A : List α) (B : List β), A.length = B.length →
    (A.eraseIdx i).zip (B.eraseIdx i) = (A.zip B).eraseIdx i := by
  intro i
  induction i with
  | zero =>
    intro A B hAB
    cases A with
    | nil => simp
    | cons a A =>
      cases B with
      | nil => simp at hAB
      | cons b B => simp
  | succ j ih =>
    intro A B hAB
    cases A with
    | nil => simp
    | cons a A =>
      cases B with
      | nil => simp at hAB
      | cons b B =>
        simp only [List.eraseIdx_cons_succ, List.zip_cons_cons]
        rw [ih A B (by simpa using hAB)]

/-- A list is a permutation of its element at `i` consed onto the erasure
at `i`. -/
theorem perm_getElem_cons_eraseIdx {α : Type _} :
    ∀ (Z : List α) (i : Nat) (h : i < Z.length), Z.Perm (Z[i] :: Z.eraseIdx i) := by
  intro Z
  induction Z with
  | nil => intro i h; simp at h
  | cons z Z ih =>
    intro i h
    cases i with
    | zero => simp
    | succ j =>
      have hj : j < Z.length := by simpa using h
      rw [List.eraseIdx_cons_succ]
      have h1 : (z :: Z)[j + 1] = Z[j] := by simp
      rw [h1]
      exact ((ih j hj).cons z).trans (List.Perm.swap _ _ _)

/-- C7: removing the pair at an in-bounds index and re-inserting the returned
key/value restores the same multiset of (value, key) pairs. -/
theorem remove_insert_roundtrip {T : Type} (v : IsizeVec T) (i : Nat)
    (hs : v.order.Sorted (· ≤ ·)) (hlen : v.items.length = v.order.length)
    (hi : i < v.len) :
    ∃ x k w, v.remove i = some ((x, k), w) ∧
      ((w.insert k x).1.items.zip (w.insert k x).1.order).Perm
        (v.items.zip v.order) := by
  rw [IsizeVec.len] at hi
  have hio : i < v.order.length := by omega
  have hga := List.getElem?_eq_getElem hi
  have hgo := List.getElem?_eq_getElem hio
  simp only [IsizeVec.remove, hga, hgo]
  refine ⟨_, _, _, rfl, ?_⟩
  have hws : (v.order.eraseIdx i).Sorted (· ≤ ·) :=
    List.Pairwise.sublist (List.eraseIdx_sublist _ _) hs
  have hwitems : (v.items.eraseIdx i).length = v.items.length - 1 := by
    rw [List.length_eraseIdx, if_pos hi]
  have hworder : (v.order.eraseIdx i).length = v.order.length - 1 := by
    rw [List.length_eraseIdx, if_pos hio]
  have hwlen : (v.items.eraseIdx i).length = (v.order.eraseIdx i).length := by omega
  have hp : insPos (v.order.eraseIdx i) (v.order[i]) ≤ (v.order.eraseIdx i).length :=
    insPos_le _ _
  rw [insert_eq ⟨v.items.eraseIdx i, v.order.eraseIdx i⟩ (v.order[i]) (v.items[i]) hws hwlen]
  dsimp only
  rw [zip_insertIdx _ _ _ _ _ hwlen (by omega)]
  rw [zip_eraseIdx i v.items v.order hlen]
  have hiz : i < (v.items.zip v.order).length := by
    rw [List.length_zip]; omega
  have hz1 : (v.items.zip v.order)[i] = (v.items[i], v.order[i]) := List.getElem_zip
  refine List.Perm.trans (List.perm_insertIdx _ _ ?_) ?_
  · rw [List.length_eraseIdx, if_pos hiz, List.length_zip]
    rw [List.length_zip] at hiz
    omega
  · rw [← hz1]
    exact (perm_getElem_cons_eraseIdx _ i hiz).symm

/-- Bounds-checked lookup succeeds exactly in bounds. -/
theorem getElem?_isSome_iff {α : Type _} (l : List α) (i : Nat) :
    (l[i]?).isSome ↔ i < l.length := by
  by_cases h : i < l.length
  · rw [List.getElem?_eq_getElem h]; simp [h]
  · rw [List.getElem?_eq_none (by omega)]; simp; omega

/-- C8: `get`/`get_mut` return `none` rather than failing when the index is
out of range, while `remove` and direct indexing fail (panic, modelled as
`none`) exactly when the index is out of bounds. -/
theorem checked_vs_trusted_bounds {T : Type} (v : IsizeVec T) (i : Nat)
    (hlen : v.items.length = v.order.length) :
    ((v.get i).isSome ↔ i < v.len) ∧
    ((v.get_mut i).isSome ↔ i < v.len) ∧
    ((v.index i).isSome ↔ i < v.len) ∧
    ((v.remove i).isSome ↔ i < v.len) := by
  refine ⟨getElem?_isSome_iff _ _, getElem?_isSome_iff _ _, getElem?_isSome_iff _ _, ?_⟩
  rw [IsizeVec.len]
  by_cases h : i < v.items.length
  · have h2 : i < v.order.length := by omega
    simp only [IsizeVec.remove, List.getElem?_eq_getElem h, List.getElem?_eq_getElem h2]
    simp [h]
  · simp only [IsizeVec.remove, List.getElem?_eq_none (show v.items.length ≤ i by omega)]
    simp [h]

/-- C9: `extract` hands back the whole value sequence in order and leaves the
collection empty; a subsequent `push` behaves as on a fresh collection. -/
theorem extract_empties {T : Type} (v : IsizeVec T) (x : T) :
    v.extract.1 = v.items ∧ v.extract.2.len = 0 ∧ v.extract.2.order = [] ∧
    v.extract.2.push x = (IsizeVec.new T).push x :=
  ⟨rfl, rfl, rfl, rfl⟩

/-- C10: on a collection satisfying the invariants, `insert k x` returns an
index `p ≤ len` and both sequences become the old ones with the new value and
key inserted at `p`; in particular the zip of the two sequences is the old zip
with the pair inserted at `p`, so all pre-existing pairs and their relative
order are preserved. -/
theorem insert_frame {T : Type} (v : IsizeVec T) (k : Int) (x : T)
    (hs : v.order.Sorted (· ≤ ·)) (hlen : v.items.length = v.order.length) :
    ∃ p, p ≤ v.items.length ∧ (v.insert k x).2 = p ∧
      (v.insert k x).1.items = v.items.insertIdx p x ∧
      (v.insert k x).1.order = v.order.insertIdx p k ∧
      (v.insert k x).1.items.zip (v.insert k x).1.order =
        (v.items.zip v.order).insertIdx p (x, k) := by
  refine ⟨insPos v.order k, ?_, ?_, ?_, ?_, ?_⟩
  · rw [hlen]; exact insPos_le _ _
  · rw [insert_eq v k x hs hlen]
  · rw [insert_eq v k x hs hlen]
  · rw [insert_eq v k x hs hlen]
  · rw [insert_eq v k x hs hlen]
    dsimp only
    exact zip_insertIdx x k _ _ _ hlen (by rw [hlen]; exact insPos_le _ _)

/-! ### Concrete witnesses -/

/-- A concrete sample container with sorted keys, used by the witnesses. -/
def sample : IsizeVec Nat := ⟨[10, 20], [0, 5]⟩

/-- Witness: the FIFO tie-break theorem applied to a concrete container. -/
theorem insert_fifo_nonneg_witness :
    ((0 : Int) ≤ 0 ∧ sample.order.Sorted (· ≤ ·) ∧
      sample.items.length = sample.order.length) ∧
    (insertSame sample 0 [1, 2]).items =
      sample.items.take (upperRun sample.order 0) ++ [1, 2] ++
        sample.items.drop (upperRun sample.order 0) :=
  ⟨⟨by decide, by decide, by decide⟩,
    insert_fifo_nonneg sample 0 [1, 2] (by decide) (by decide) (by decide)⟩

/-- Witness: the LIFO tie-break theorem applied to a concrete container. -/
theorem insert_lifo_neg_witness :
    ((-1 : Int) < 0 ∧ sample.order.Sorted (· ≤ ·) ∧
      sample.items.length = sample.order.length) ∧
    (insertSame sample (-1) [1, 2]).items =
      sample.items.take (lowerRun sample.order (-1)) ++ [2, 1] ++
        sample.items.drop (lowerRun sample.order (-1)) :=
  ⟨⟨by decide, by decide, by decide⟩,
    insert_lifo_neg sample (-1) [1, 2] (by decide) (by decide) (by decide)⟩

/-- Witness: the `first_right_of` characterisation at a concrete container. -/
theorem first_right_of_least_gt_witness :
    sample.order.Sorted (· ≤ ·) ∧
    (sample.first_right_of 0 ≤ sample.order.length ∧
      (∀ j, j < sample.first_right_of 0 → sample.order.getD j 0 ≤ 0) ∧
      (sample.first_right_of 0 < sample.order.length →
        (0 : Int) < sample.order.getD (sample.first_right_of 0) 0)) :=
  ⟨by decide, first_right_of_least_gt sample 0 (by decide)⟩

/-- Witness: the `retain` synchronisation theorem at a concrete container. -/
theorem retain_sync_witness :
    sample.items.length = sample.order.length ∧
    ((sample.retain (fun x => decide (x ≠ 10))).items =
        sample.items.filter (fun x => decide (x ≠ 10)) ∧
      (sample.retain (fun x => decide (x ≠ 10))).items.zip
          (sample.retain (fun x => decide (x ≠ 10))).order =
        (sample.items.zip sample.order).filter (fun q => decide (q.1 ≠ 10)) ∧
      (sample.retain (fun x => decide (x ≠ 10))).items.length =
        (sample.retain (fun x => decide (x ≠ 10))).order.length) :=
  ⟨by decide, retain_sync sample (fun x => decide (x ≠ 10)) (by decide)⟩

/-- Witness: the `swap` frame theorem at a concrete container. -/
theorem swap_values_only_witness :
    (0 < sample.len ∧ 1 < sample.len) ∧
    (∃ w, sample.swap 0 1 = some w ∧ w.order = sample.order ∧
      w.items[0]? = sample.items[1]? ∧ w.items[1]? = sample.items[0]? ∧
      (∀ i, i ≠ 0 → i ≠ 1 → w.items[i]? = sample.items[i]?) ∧
      w.items.length = sample.items.length) :=
  ⟨⟨by decide, by decide⟩, swap_values_only sample 0 1 (by decide) (by decide)⟩

/-- Witness: the remove/insert round-trip theorem at a concrete container. -/
theorem remove_insert_roundtrip_witness :
    (sample.order.Sorted (· ≤ ·) ∧ sample.items.length = sample.order.length ∧
      0 < sample.len) ∧
    (∃ x k w, sample.remove 0 = some ((x, k), w) ∧
      ((w.insert k x).1.items.zip (w.insert k x).1.order).Perm
        (sample.items.zip sample.order)) :=
  ⟨⟨by decide, by decide, by decide⟩,
    remove_insert_roundtrip sample 0 (by decide) (by decide) (by decide)⟩

/-- Witness: the checked/trusted bounds theorem at a concrete container and
an out-of-range index. -/
theorem checked_vs_trusted_bounds_witness :
    sample.items.length = sample.order.length ∧
    (((sample.get 5).isSome ↔ 5 < sample.len) ∧
      ((sample.get_mut 5).isSome ↔ 5 < sample.len) ∧
      ((sample.index 5).isSome ↔ 5 < sample.len) ∧
      ((sample.remove 5).isSome ↔ 5 < sample.len)) :=
  ⟨by decide, checked_vs_trusted_bounds sample 5 (by decide)⟩

/-- Witness: the `insert` frame theorem at a concrete container. -/
theorem insert_frame_witness :
    (sample.order.Sorted (· ≤ ·) ∧ sample.items.length = sample.order.length) ∧
    (∃ p, p ≤ sample.items.length ∧ (sample.insert 3 7).2 = p ∧
      (sample.insert 3 7).1.items = sample.items.insertIdx p 7 ∧
      (sample.insert 3 7).1.order = sample.order.insertIdx p 3 ∧
      (sample.insert 3 7).1.items.zip (sample.insert 3 7).1.order =
        (sample.items.zip sample.order).insertIdx p (7, 3)) :=
  ⟨⟨by decide, by decide⟩, insert_frame sample 3 7 (by decide) (by decide)⟩

end IsizeVecSpec
